import Mathlib

/-!
# Verification of `scripts/convert_xlsx_to_json.py`

A shallow embedding of the XLSX-to-JSON quiz converter: the Sheet Reader
(`load_rows` and `col_letter_to_index`), the Card Grouper (`cells_to_cards`),
and the per-column orchestration in `main`, together with theorems settling
the specification claims about them.

Python strings are modelled as Lean `String`/`List Char`, Python ints as
`Int`, Python list indexing (including negative indices) explicitly, and
fallible operations (`int()`, list indexing) in the `Except` monad so that
raised exceptions are observable.
-/

namespace RafQuizzer

/-! ## Column letters: `col_letter_to_index` -/

/-- `ord(ch)` of the Python `str.upper` of an ASCII character: lowercase
letters map to their uppercase code point, everything else is unchanged.
Embeds `ord(char)` over `col.upper()`. -/
def upperOrd (c : Char) : Nat :=
  if c.isLower then c.toNat - 32 else c.toNat

/-- Embedding of `col_letter_to_index`: fold `result = result * 26 +
(ord(char) - ord('A') + 1)` over the uppercased letters, then subtract 1. -/
def colLetterToIndex (cs : List Char) : Int :=
  (cs.foldl (fun r c => r * 26 + ((upperOrd c : Int) - 64)) 0) - 1

/-- The spec's base-26 reading: a digit value per letter, `A`/`a` = 1 …
`Z`/`z` = 26. -/
def specDigit (c : Char) : Nat :=
  if c.isLower then c.toNat - 96 else c.toNat - 64

/-- The spec's base-26 value of a letter string (digits A=1..Z=26). -/
def specBase26 (cs : List Char) : Nat :=
  cs.foldl (fun n c => n * 26 + specDigit c) 0

/-! ## Sheet Reader: `load_rows` -/

/-- An XML cell element as `load_rows` sees it: the `r` reference attribute
(`none` when absent; the code reads it with `cell.get("r", "")`), the `t`
type attribute, and the text of the `<v>` child (`none` when there is no
`<v>` child). -/
structure Cell where
  r : Option String
  t : Option String
  v : Option String
deriving DecidableEq, Repr

/-- Parse a decimal digit run; `none` when empty or not all digits. -/
def parseDigits (ds : List Char) : Option Nat :=
  if ds = [] then none
  else if ds.all Char.isDigit then
    some (ds.foldl (fun n c => n * 10 + (c.toNat - 48)) 0)
  else none

/-- Embedding of Python `int(s)`: an optional sign followed by decimal
digits; `none` models the `ValueError`/`TypeError` raised otherwise. -/
def parseInt (s : String) : Option Int :=
  match s.toList with
  | '-' :: ds => (parseDigits ds).map (fun n => -(n : Int))
  | '+' :: ds => (parseDigits ds).map (fun n => (n : Int))
  | ds => (parseDigits ds).map (fun n => (n : Int))

/-- Python list indexing `l[i]`: negative indices count from the end, and
an index out of range raises `IndexError` (modelled as `Except.error`). -/
def pyIndex (l : List String) (i : Int) : Except Unit String :=
  let j : Int := if i < 0 then (l.length : Int) + i else i
  if h : 0 ≤ j ∧ j < (l.length : Int) then
    .ok (l.get ⟨j.toNat, by omega⟩)
  else
    .error ()

/-- Embedding of `shared[idx] if idx < len(shared) else ""`. -/
def resolveShared (shared : List String) (idx : Int) : Except Unit String :=
  if idx < (shared.length : Int) then pyIndex shared idx else .ok ""

/-- The alphabetic characters of a cell's reference attribute:
`"".join(c for c in cell.get("r", "") if c.isalpha())`. -/
def cellLetters (cell : Cell) : List Char :=
  (cell.r.getD "").toList.filter Char.isAlpha

/-- Process one cell of a row: `ok none` when the cell is skipped (no
alphabetic reference characters), `ok (some (colIdx, value))` when it
contributes, `error` when the shared-string path raises. -/
def processCell (shared : List String) (cell : Cell) :
    Except Unit (Option (Int × String)) :=
  let letters := cellLetters cell
  if letters = [] then .ok none
  else
    let colIdx := colLetterToIndex letters
    match cell.v with
    | none => .ok (some (colIdx, ""))
    | some vtext =>
      if cell.t = some "s" then
        match parseInt vtext with
        | none => .error ()
        | some idx =>
          match resolveShared shared idx with
          | .ok s => .ok (some (colIdx, s))
          | .error e => .error e
      else .ok (some (colIdx, vtext))

/-- The inner cell loop of `load_rows`: accumulate the `row_data` dict (as
the ordered list of writes) and `max_col` (initialised to 0, as in the
code). -/
def processCells (shared : List String) :
    List Cell → List (Int × String) → Int →
    Except Unit (List (Int × String) × Int)
  | [], d, m => .ok (d, m)
  | cell :: rest, d, m =>
    match processCell shared cell with
    | .error e => .error e
    | .ok none => processCells shared rest d m
    | .ok (some (idx, val)) => processCells shared rest (d ++ [(idx, val)]) (max m idx)

/-- `row_data.get(k, "")` on the write list: the last write to `k` wins,
default `""`. -/
def dictGet (d : List (Int × String)) (k : Int) : String :=
  d.foldl (fun acc p => if p.1 = k then p.2 else acc) ""

/-- One row of `load_rows`: run the cell loop, then
`[row_data.get(i, "") for i in range(max_col + 1)]`. -/
def loadRow (shared : List String) (cells : List Cell) :
    Except Unit (List String) :=
  match processCells shared cells [] 0 with
  | .error e => .error e
  | .ok (d, m) =>
    .ok ((List.range (m + 1).toNat).map (fun i => dictGet d (Int.ofNat i)))

/-- All rows of `load_rows` (the grid), in document order. -/
def loadRows (shared : List String) (rows : List (List Cell)) :
    Except Unit (List (List String)) :=
  rows.mapM (loadRow shared)

/-- The column indices contributed by a row's cells, in cell order (cells
without alphabetic reference characters contribute nothing). -/
def cellIndices (cells : List Cell) : List Int :=
  cells.filterMap (fun c =>
    if cellLetters c = [] then none else some (colLetterToIndex (cellLetters c)))

/-! ## The header pattern: a fragment of `re` sufficient for `re.match`
with `re.IGNORECASE` on literal patterns, with or without a leading `^`. -/

/-- A regex token: the `^` anchor or a literal character. -/
inductive Tok where
  | caret : Tok
  | lit : Char → Tok
deriving DecidableEq, Repr

/-- Case-insensitive character comparison (`re.IGNORECASE`). -/
def charMatch (p c : Char) : Bool := p.toLower == c.toLower

/-- Match a token list against the characters, carrying whether we are
still at the start of the subject (where `^` succeeds). -/
def matchToks : List Tok → List Char → Bool → Bool
  | [], _, _ => true
  | .caret :: rest, s, atStart => atStart && matchToks rest s atStart
  | .lit _ :: _, [], _ => false
  | .lit p :: rest, c :: cs, _ => charMatch p c && matchToks rest cs false

/-- `re.match` semantics: the pattern is applied at the beginning of the
subject (position 0), where `^` holds. -/
def reMatch (pat : List Tok) (s : List Char) : Bool :=
  matchToks pat s true

/-- The literal characters of a pattern, in order. -/
def patLits (pat : List Tok) : List Char :=
  pat.filterMap (fun t => match t with | .caret => none | .lit c => some c)

/-- The header test of `cells_to_cards`: `header_re.match(cell)` with the
compiled case-insensitive pattern. -/
def isHeaderCell (pat : List Tok) (s : String) : Bool :=
  reMatch pat s.toList

/-- The default header pattern `r"^TK"`. -/
def defaultHeader : List Tok := [.caret, .lit 'T', .lit 'K']

/-! ## Card Grouper: `cells_to_cards` -/

/-- A question/answer card: `{"question": ..., "answers": [...]}`. -/
structure Card where
  question : String
  answers : List String
deriving DecidableEq, Repr

/-- One iteration of the `cells_to_cards` loop on the state
`(cards, current)`. -/
def groupStep (isHeader : String → Bool) :
    List Card × Option Card → String → List Card × Option Card
  | (cards, current), cell =>
    if isHeader cell then
      match current with
      | some c => (cards ++ [c], some ⟨cell, []⟩)
      | none => (cards, some ⟨cell, []⟩)
    else
      match current with
      | none => (cards, some ⟨"Untitled", [cell]⟩)
      | some c => (cards, some ⟨c.question, c.answers ++ [cell]⟩)

/-- The trailing `if current: cards.append(current)`. -/
def flushState : List Card × Option Card → List Card
  | (cards, none) => cards
  | (cards, some c) => cards ++ [c]

/-- `cells_to_cards` generalised over the header predicate (the code
compiles the regex once and only ever calls `header_re.match`). -/
def cellsToCardsP (isHeader : String → Bool) (cells : List String) : List Card :=
  flushState (cells.foldl (groupStep isHeader) ([], none))

/-- Embedding of `cells_to_cards(cells, header_regex)`. -/
def cellsToCards (pat : List Tok) (cells : List String) : List Card :=
  cellsToCardsP (isHeaderCell pat) cells

/-- Total number of answers across a card list. -/
def totalAnswers (cards : List Card) : Nat :=
  (cards.map (fun c => c.answers.length)).sum

/-- Answers held by the in-flight current card. -/
def curAnswers : Option Card → Nat
  | none => 0
  | some c => c.answers.length

/-! ## Orchestration: the deck construction in `main` -/

/-- Python whitespace stripped by `str.strip()` (ASCII portion). -/
def isPySpace (c : Char) : Bool :=
  c = ' ' || c = '\t' || c = '\n' || c = '\x0d' || c = '\x0b' || c = '\x0c'

/-- Embedding of `str.strip()`. -/
def pyStrip (s : String) : String :=
  ⟨((s.toList.dropWhile isPySpace).reverse.dropWhile isPySpace).reverse⟩

/-- `max(len(row) for row in rows) if rows else 0`. -/
def numCols (rows : List (List String)) : Nat :=
  (rows.map List.length).foldl max 0

/-- One column's non-empty stripped values, top to bottom: the
`col_cells` loop in `main`. -/
def colCells (rows : List (List String)) (c : Nat) : List String :=
  rows.filterMap (fun row =>
    if c < row.length then
      let cell := pyStrip (row.getD c "")
      if cell = "" then none else some cell
    else none)

/-- The `all_cards` accumulation in `main`: for each column index in
order, extend with that column's cards. -/
def buildDeck (pat : List Tok) (rows : List (List String)) : List Card :=
  (List.range (numCols rows)).foldl
    (fun acc c => acc ++ cellsToCards pat (colCells rows c)) []

/-! ## JSON model -/

/-- The JSON values `json.dumps`/`json.loads` exchange for a deck. -/
inductive Json where
  | str : String → Json
  | arr : List Json → Json
  | obj : List (String × Json) → Json

/-- Serialise one card: an object with `question` and `answers` keys. -/
def cardToJson (c : Card) : Json :=
  .obj [("question", .str c.question), ("answers", .arr (c.answers.map .str))]

/-- Serialise a deck: a JSON array of card objects. -/
def deckToJson (deck : List Card) : Json :=
  .arr (deck.map cardToJson)

/-- Read back a JSON string. -/
def jsonToStr : Json → Option String
  | .str s => some s
  | _ => none

/-- Read back one card from its JSON object. -/
def jsonToCard : Json → Option Card
  | .obj [("question", .str q), ("answers", .arr ans)] =>
    (ans.mapM jsonToStr).map (fun l => ⟨q, l⟩)
  | _ => none

/-- Parse a deck back from its JSON array. -/
def jsonToDeck : Json → Option (List Card)
  | .arr elems => elems.mapM jsonToCard
  | _ => none

/-! ## Card Grouper lemmas -/

theorem groupStep_shift (h : String → Bool) (cards : List Card) (cur : Option Card)
    (cell : String) :
    groupStep h (cards, cur) cell
      = (cards ++ (groupStep h ([], cur) cell).1, (groupStep h ([], cur) cell).2) := by
  cases hc : h cell <;> cases cur <;> simp [groupStep, hc]

theorem foldl_groupStep_shift (h : String → Bool) :
    ∀ (cells : List String) (cards : List Card) (cur : Option Card),
    cells.foldl (groupStep h) (cards, cur)
      = (cards ++ (cells.foldl (groupStep h) ([], cur)).1,
         (cells.foldl (groupStep h) ([], cur)).2) := by
  intro cells
  induction cells with
  | nil => intro cards cur; simp
  | cons c cs ih =>
    intro cards cur
    simp only [List.foldl_cons]
    rcases hs : groupStep h ([], cur) c with ⟨l1, c1⟩
    rw [groupStep_shift h cards cur c, hs, ih (cards ++ l1) c1, ih l1 c1]
    simp

theorem groupStep_count (h : String → Bool) (cards : List Card) (cur : Option Card)
    (c : String) :
    totalAnswers (groupStep h (cards, cur) c).1 + curAnswers (groupStep h (cards, cur) c).2
      = totalAnswers cards + curAnswers cur + (if h c then 0 else 1) := by
  cases hc : h c <;> cases cur <;>
    simp +arith [groupStep, hc, totalAnswers, curAnswers]

theorem foldl_groupStep_count (h : String → Bool) :
    ∀ (cells : List String) (cards : List Card) (cur : Option Card),
    totalAnswers (cells.foldl (groupStep h) (cards, cur)).1
        + curAnswers (cells.foldl (groupStep h) (cards, cur)).2 + cells.countP h
      = totalAnswers cards + curAnswers cur + cells.length := by
  intro cells
  induction cells with
  | nil => intro cards cur; simp
  | cons c cs ih =>
    intro cards cur
    simp only [List.foldl_cons, List.countP_cons, List.length_cons]
    rcases hstep : groupStep h (cards, cur) c with ⟨cards2, cur2⟩
    have h1 := ih cards2 cur2
    have h2 := groupStep_count h cards cur c
    rw [hstep] at h2
    cases hc : h c <;> simp [hc] at h1 h2 ⊢ <;> omega

theorem flushState_eq (st : List Card × Option Card) :
    flushState st = st.1 ++ st.2.toList := by
  rcases st with ⟨cards, cur⟩
  cases cur <;> simp [flushState]

theorem flushState_append (l1 l2 : List Card) (cur : Option Card) :
    flushState (l1 ++ l2, cur) = l1 ++ flushState (l2, cur) := by
  cases cur <;> simp [flushState]

theorem totalAnswers_flushState (st : List Card × Option Card) :
    totalAnswers (flushState st) = totalAnswers st.1 + curAnswers st.2 := by
  rcases st with ⟨cards, cur⟩
  cases cur <;> simp [flushState, totalAnswers, curAnswers]

theorem cellsToCardsP_conservation (isHeader : String → Bool) (cells : List String) :
    totalAnswers (cellsToCardsP isHeader cells) + cells.countP isHeader = cells.length := by
  unfold cellsToCardsP
  rw [totalAnswers_flushState]
  have h := foldl_groupStep_count isHeader cells [] none
  rw [show totalAnswers ([] : List Card) = 0 from rfl,
      show curAnswers (none : Option Card) = 0 from rfl] at h
  omega

theorem foldl_groupStep_nonheaders (h : String → Bool) :
    ∀ (pre : List String), (∀ c ∈ pre, h c = false) →
    ∀ (q : String) (ans : List String),
    pre.foldl (groupStep h) ([], some ⟨q, ans⟩) = ([], some ⟨q, ans ++ pre⟩) := by
  intro pre
  induction pre with
  | nil => intro _ q ans; simp
  | cons c cs ih =>
    intro hpre q ans
    have hc : h c = false := hpre c (List.mem_cons_self c cs)
    simp only [List.foldl_cons]
    rw [show groupStep h (([] : List Card), some ⟨q, ans⟩) c = ([], some ⟨q, ans ++ [c]⟩) by
      simp [groupStep, hc]]
    rw [ih (fun x hx => hpre x (List.mem_cons_of_mem c hx)) q (ans ++ [c])]
    simp

theorem foldl_groupStep_untitled (h : String → Bool) (c : String) (cs : List String)
    (hpre : ∀ x ∈ c :: cs, h x = false) :
    (c :: cs).foldl (groupStep h) ([], none) = ([], some ⟨"Untitled", c :: cs⟩) := by
  have hc : h c = false := hpre c (List.mem_cons_self c cs)
  simp only [List.foldl_cons]
  rw [show groupStep h (([] : List Card), (none : Option Card)) c
      = ([], some ⟨"Untitled", [c]⟩) by simp [groupStep, hc]]
  rw [foldl_groupStep_nonheaders h cs (fun x hx => hpre x (List.mem_cons_of_mem c hx))
      "Untitled" [c]]
  simp

/-! ## Claims C1, C2, C6 -/

/-- C1: Scenario A holds — `cells_to_cards` on
`["TK1","ans1","ans2","TK2","ans3"]` with the default header pattern
yields the two cards `TK1/[ans1,ans2]` and `TK2/[ans3]` — and in general a
string matching the header predicate finalizes any current card (appending
it to the output) and starts a new card with that string as its question
and no answers; consequently the output splits at every header. -/
theorem C1_header_starts_card :
    cellsToCards defaultHeader ["TK1", "ans1", "ans2", "TK2", "ans3"]
      = [⟨"TK1", ["ans1", "ans2"]⟩, ⟨"TK2", ["ans3"]⟩]
    ∧ (∀ (h : String → Bool) (cards : List Card) (cur : Option Card) (cell : String),
        h cell = true →
        groupStep h (cards, cur) cell = (cards ++ cur.toList, some ⟨cell, []⟩))
    ∧ (∀ (h : String → Bool) (xs : List String) (cell : String) (ys : List String),
        h cell = true →
        cellsToCardsP h (xs ++ cell :: ys)
          = cellsToCardsP h xs ++ cellsToCardsP h (cell :: ys)) := by
  refine ⟨by decide, ?_, ?_⟩
  · intro h cards cur cell hc
    cases cur <;> simp [groupStep, hc]
  · intro h xs cell ys hc
    unfold cellsToCardsP
    rw [List.foldl_append]
    rcases hfx : xs.foldl (groupStep h) ([], none) with ⟨cards1, cur1⟩
    simp only [List.foldl_cons]
    rw [show groupStep h (cards1, cur1) cell = (cards1 ++ cur1.toList, some ⟨cell, []⟩) by
      cases cur1 <;> simp [groupStep, hc]]
    rw [show groupStep h (([] : List Card), (none : Option Card)) cell
        = ([], some ⟨cell, []⟩) by simp [groupStep, hc]]
    rw [foldl_groupStep_shift h ys (cards1 ++ cur1.toList) (some ⟨cell, []⟩)]
    rw [flushState_append, flushState_eq (cards1, cur1)]

/-- Witness for C1 at concrete inputs. -/
theorem C1_witness :
    groupStep (isHeaderCell defaultHeader) ([⟨"Q0", []⟩], some ⟨"Q1", ["a"]⟩) "TK5"
        = ([⟨"Q0", []⟩, ⟨"Q1", ["a"]⟩], some ⟨"TK5", []⟩)
    ∧ cellsToCardsP (isHeaderCell defaultHeader) (["TK1", "x"] ++ "TK2" :: ["y"])
        = cellsToCardsP (isHeaderCell defaultHeader) ["TK1", "x"]
          ++ cellsToCardsP (isHeaderCell defaultHeader) ("TK2" :: ["y"]) := by
  constructor
  · have h := C1_header_starts_card.2.1 (isHeaderCell defaultHeader)
      [⟨"Q0", []⟩] (some ⟨"Q1", ["a"]⟩) "TK5" (by decide)
    simpa using h
  · exact C1_header_starts_card.2.2 (isHeaderCell defaultHeader)
      ["TK1", "x"] "TK2" ["y"] (by decide)

/-- C2: for every header predicate (hence for every compiled pattern) and
every input list, the total number of answers in the output plus the
number of inputs matching the predicate equals the input length: every
line becomes a question or exactly one answer, never both, never
dropped. -/
theorem C2_line_conservation (isHeader : String → Bool) (pat : List Tok)
    (cells : List String) :
    totalAnswers (cellsToCardsP isHeader cells) + cells.countP isHeader = cells.length
    ∧ totalAnswers (cellsToCards pat cells) + cells.countP (isHeaderCell pat)
        = cells.length :=
  ⟨cellsToCardsP_conservation isHeader cells,
   cellsToCardsP_conservation (isHeaderCell pat) cells⟩

/-- C6: Scenario B holds — `["ans0","TK1"]` yields an `Untitled` card
holding `ans0` followed by an answerless `TK1` card — and in general any
non-empty run of non-header strings before the first header collapses
into a single `Untitled` card carrying exactly those strings in order. -/
theorem C6_untitled_leading :
    cellsToCards defaultHeader ["ans0", "TK1"]
      = [⟨"Untitled", ["ans0"]⟩, ⟨"TK1", []⟩]
    ∧ (∀ (h : String → Bool) (pre : List String), pre ≠ [] →
        (∀ c ∈ pre, h c = false) →
        cellsToCardsP h pre = [⟨"Untitled", pre⟩]
        ∧ ∀ (r : String) (rest : List String), h r = true →
          cellsToCardsP h (pre ++ r :: rest)
            = ⟨"Untitled", pre⟩ :: cellsToCardsP h (r :: rest)) := by
  refine ⟨by decide, ?_⟩
  intro h pre hne hpre
  rcases pre with _ | ⟨c, cs⟩
  · exact absurd rfl hne
  constructor
  · unfold cellsToCardsP
    rw [foldl_groupStep_untitled h c cs hpre]
    simp [flushState]
  · intro r rest hr
    unfold cellsToCardsP
    rw [List.foldl_append, foldl_groupStep_untitled h c cs hpre]
    simp only [List.foldl_cons]
    rw [show groupStep h (([] : List Card), some ⟨"Untitled", c :: cs⟩) r
        = ([⟨"Untitled", c :: cs⟩], some ⟨r, []⟩) by simp [groupStep, hr]]
    rw [show groupStep h (([] : List Card), (none : Option Card)) r
        = ([], some ⟨r, []⟩) by simp [groupStep, hr]]
    rw [foldl_groupStep_shift h rest [⟨"Untitled", c :: cs⟩] (some ⟨r, []⟩)]
    rw [flushState_append]
    simp

/-! ## Regex-fragment lemmas and C9 -/

theorem matchToks_lits :
    ∀ (pat : List Tok), (∀ t ∈ pat, t ≠ Tok.caret) →
    ∀ (s : List Char) (b : Bool),
    (matchToks pat s b = true
      ↔ (patLits pat).map Char.toLower
          = (s.map Char.toLower).take (patLits pat).length) := by
  intro pat
  induction pat with
  | nil => intro _ s b; simp [matchToks, patLits]
  | cons t rest ih =>
    intro hp s b
    rcases t with _ | p
    · exact absurd rfl (hp Tok.caret (List.mem_cons_self Tok.caret rest))
    · have hrest := fun x hx => hp x (List.mem_cons_of_mem (Tok.lit p) hx)
      rcases s with _ | ⟨c, cs⟩
      · simp [matchToks, patLits]
      · rw [show matchToks (Tok.lit p :: rest) (c :: cs) b
            = (charMatch p c && matchToks rest cs false) from rfl]
        simp [charMatch, patLits, List.take_succ_cons, ih hrest cs false]

/-- C9: the header test of `cells_to_cards` has `re.match` semantics — a
leading `^` anchor is a no-op, and a caret-free (literal) pattern matches
iff its case-folded literals are an initial segment of the case-folded
cell, so a pattern without `^` still never matches in the middle of a
cell (e.g. `"xTK1"` is grouped as an answer, not a header, under the
unanchored pattern `TK`). -/
theorem C9_match_is_anchored :
    (∀ (pat : List Tok) (s : List Char), reMatch (Tok.caret :: pat) s = reMatch pat s)
    ∧ (∀ (pat : List Tok), (∀ t ∈ pat, t ≠ Tok.caret) → ∀ (s : String),
        (isHeaderCell pat s = true
          ↔ (patLits pat).map Char.toLower
              = (s.toList.map Char.toLower).take (patLits pat).length))
    ∧ cellsToCards [Tok.lit 'T', Tok.lit 'K'] ["xTK1"] = [⟨"Untitled", ["xTK1"]⟩] := by
  refine ⟨?_, ?_, by decide⟩
  · intro pat s
    simp [reMatch, matchToks]
  · intro pat hp s
    simpa [isHeaderCell, reMatch] using matchToks_lits pat hp s.toList true

/-- Witness for C9 at a concrete pattern and cell. -/
theorem C9_witness :
    isHeaderCell [Tok.lit 'T', Tok.lit 'K'] "tk9" = true
      ↔ (patLits [Tok.lit 'T', Tok.lit 'K']).map Char.toLower
          = ("tk9".toList.map Char.toLower).take
              (patLits [Tok.lit 'T', Tok.lit 'K']).length :=
  C9_match_is_anchored.2.1 [Tok.lit 'T', Tok.lit 'K'] (by decide) "tk9"

/-! ## JSON round-trip lemmas and C8 -/

theorem mapM_jsonToStr (l : List String) :
    (l.map Json.str).mapM jsonToStr = some l := by
  induction l with
  | nil => rfl
  | cons a as ih =>
    rw [List.map_cons, List.mapM_cons]
    have ih2 : (List.mapM.loop jsonToStr (List.map Json.str as) [] :
        Option (List String)) = some as := ih
    simp [ih2, jsonToStr]

theorem jsonToCard_cardToJson (c : Card) :
    jsonToCard (cardToJson c) = some c := by
  rcases c with ⟨q, ans⟩
  have h2 : (List.mapM.loop jsonToStr (List.map Json.str ans) [] :
      Option (List String)) = some ans := mapM_jsonToStr ans
  simp [cardToJson, jsonToCard, h2]

/-- C8: serialising a deck to JSON and parsing the JSON back yields a
structurally equal list of question/answers records. -/
theorem C8_json_round_trip (deck : List Card) :
    jsonToDeck (deckToJson deck) = some deck := by
  rw [show jsonToDeck (deckToJson deck) = (deck.map cardToJson).mapM jsonToCard from rfl]
  induction deck with
  | nil => rfl
  | cons c cs ih =>
    rw [List.map_cons, List.mapM_cons]
    have ih2 : (List.mapM.loop jsonToCard (List.map cardToJson cs) [] :
        Option (List Card)) = some cs := ih
    simp [ih2, jsonToCard_cardToJson]

/-! ## Column-letter lemmas and C5 -/

theorem isAlpha_toNat (c : Char) (h : c.isAlpha = true) :
    (65 ≤ c.toNat ∧ c.toNat ≤ 90) ∨ (97 ≤ c.toNat ∧ c.toNat ≤ 122) := by
  simp [Char.isAlpha, Char.isUpper, Char.isLower, UInt32.le_def, BitVec.le_def] at h
  rcases h with ⟨h1, h2⟩ | ⟨h1, h2⟩
  · left; exact ⟨h1, h2⟩
  · right; exact ⟨h1, h2⟩

theorem isLower_iff_toNat (c : Char) :
    c.isLower = true ↔ (97 ≤ c.toNat ∧ c.toNat ≤ 122) := by
  simp [Char.isLower, UInt32.le_def, BitVec.le_def]
  exact ⟨fun h => h, fun h => h⟩

theorem upperOrd_bounds (c : Char) (h : c.isAlpha = true) :
    65 ≤ upperOrd c ∧ upperOrd c ≤ 90 ∧ specDigit c = upperOrd c - 64 := by
  rcases isAlpha_toNat c h with ⟨h1, h2⟩ | ⟨h1, h2⟩
  · have hl : c.isLower = false := by
      cases hcl : c.isLower
      · rfl
      · have := (isLower_iff_toNat c).1 hcl
        omega
    refine ⟨?_, ?_, ?_⟩ <;> simp [upperOrd, specDigit, hl] <;> omega
  · have hl : c.isLower = true := (isLower_iff_toNat c).2 ⟨h1, h2⟩
    refine ⟨?_, ?_, ?_⟩ <;> simp [upperOrd, specDigit, hl] <;> omega

theorem foldl_base26 :
    ∀ (cs : List Char) (n : Nat), (∀ c ∈ cs, c.isAlpha = true) →
    cs.foldl (fun (r : Int) c => r * 26 + ((upperOrd c : Int) - 64)) (n : Int)
      = ((cs.foldl (fun (r : Nat) c => r * 26 + specDigit c) n : Nat) : Int) := by
  intro cs
  induction cs with
  | nil => intro n _; rfl
  | cons c cs2 ih =>
    intro n hall
    have hb := upperOrd_bounds c (hall c (List.mem_cons_self c cs2))
    simp only [List.foldl_cons]
    have he : (n : Int) * 26 + ((upperOrd c : Int) - 64)
        = ((n * 26 + specDigit c : Nat) : Int) := by
      rw [hb.2.2]
      omega
    rw [he, ih (n * 26 + specDigit c) (fun x hx => hall x (List.mem_cons_of_mem c hx))]

/-- C5: on a non-empty string of letters, `col_letter_to_index` computes
the base-26 reading of the letters (digits A=1..Z=26, case-insensitive)
minus one; in particular `A` maps to 0, `Z` to 25 and `AA` to 26. -/
theorem C5_col_letter_to_index (cs : List Char) (_hne : cs ≠ [])
    (halpha : ∀ c ∈ cs, c.isAlpha = true) :
    colLetterToIndex cs = (specBase26 cs : Int) - 1
    ∧ colLetterToIndex ['A'] = 0 ∧ colLetterToIndex ['Z'] = 25
    ∧ colLetterToIndex ['A', 'A'] = 26 := by
  refine ⟨?_, by decide, by decide, by decide⟩
  unfold colLetterToIndex specBase26
  have h := foldl_base26 cs 0 halpha
  simpa using h

/-- Witness for C5 at the label `AB`. -/
theorem C5_witness :
    colLetterToIndex ['A', 'B'] = (specBase26 ['A', 'B'] : Int) - 1 :=
  (C5_col_letter_to_index ['A', 'B'] (by decide) (by decide)).1

/-! ## Sheet Reader lemmas -/

theorem processCell_cases (shared : List String) (cell : Cell) :
    (cellLetters cell = [] ∧ processCell shared cell = .ok none)
    ∨ (cellLetters cell ≠ []
        ∧ ((∃ v, processCell shared cell
              = .ok (some (colLetterToIndex (cellLetters cell), v)))
          ∨ processCell shared cell = .error ())) := by
  by_cases hl : cellLetters cell = []
  · left
    exact ⟨hl, by simp [processCell, hl]⟩
  · right
    refine ⟨hl, ?_⟩
    rcases hv : cell.v with _ | vtext
    · left; exact ⟨"", by simp [processCell, hl, hv]⟩
    · by_cases ht : cell.t = some "s"
      · rcases hp : parseInt vtext with _ | idx
        · right; simp [processCell, hl, hv, ht, hp]
        · rcases hr : resolveShared shared idx with e | s
          · right; simp [processCell, hl, hv, ht, hp, hr]
          · left; exact ⟨s, by simp [processCell, hl, hv, ht, hp, hr]⟩
      · left; exact ⟨vtext, by simp [processCell, hl, hv, ht]⟩

theorem processCells_ok (shared : List String) :
    ∀ (cells : List Cell) (d : List (Int × String)) (m : Int)
      (d2 : List (Int × String)) (m2 : Int),
    processCells shared cells d m = .ok (d2, m2) →
    m2 = (cellIndices cells).foldl max m
    ∧ d2.map Prod.fst = d.map Prod.fst ++ cellIndices cells := by
  intro cells
  induction cells with
  | nil =>
    intro d m d2 m2 h
    simp [processCells] at h
    simp [cellIndices, h.1, h.2]
  | cons c cs ih =>
    intro d m d2 m2 h
    rcases processCell_cases shared c with ⟨hl, hpc⟩ | ⟨hl, ⟨v, hpc⟩ | hpc⟩
    · rw [show processCells shared (c :: cs) d m = processCells shared cs d m by
        simp [processCells, hpc]] at h
      have hih := ih d m d2 m2 h
      simpa [cellIndices, hl] using hih
    · rw [show processCells shared (c :: cs) d m
          = processCells shared cs (d ++ [(colLetterToIndex (cellLetters c), v)])
              (max m (colLetterToIndex (cellLetters c))) by
        simp [processCells, hpc]] at h
      have hih := ih _ _ d2 m2 h
      constructor
      · rw [hih.1]
        simp [cellIndices, hl]
      · rw [hih.2]
        simp [cellIndices, hl]
    · rw [show processCells shared (c :: cs) d m = .error () by
        simp [processCells, hpc]] at h
      exact absurd h (by simp)

theorem foldl_max_le_init : ∀ (l : List Int) (m : Int), m ≤ l.foldl max m := by
  intro l
  induction l with
  | nil => intro m; exact le_refl m
  | cons x xs ih => intro m; exact le_trans (le_max_left m x) (ih (max m x))

theorem le_foldl_max : ∀ (l : List Int) (m i : Int), i ∈ l → i ≤ l.foldl max m := by
  intro l
  induction l with
  | nil => intro m i h; exact absurd h (List.not_mem_nil i)
  | cons x xs ih =>
    intro m i h
    rcases List.mem_cons.1 h with rfl | hmem
    · exact le_trans (le_max_right m i) (foldl_max_le_init xs (max m i))
    · exact ih (max m x) i hmem

theorem foldl_max_mem : ∀ (l : List Int) (m : Int), l.foldl max m = m ∨ l.foldl max m ∈ l := by
  intro l
  induction l with
  | nil => intro m; left; rfl
  | cons x xs ih =>
    intro m
    rw [List.foldl_cons]
    rcases ih (max m x) with h | h
    · rw [h]
      rcases le_total x m with hle | hle
      · left; exact max_eq_left hle
      · right; rw [max_eq_right hle]; exact List.mem_cons_self x xs
    · right; exact List.mem_cons_of_mem x h

theorem foldl_letters_pos :
    ∀ (cs : List Char) (r : Int), (∀ c ∈ cs, c.isAlpha = true) → 1 ≤ r →
    1 ≤ cs.foldl (fun r c => r * 26 + ((upperOrd c : Int) - 64)) r := by
  intro cs
  induction cs with
  | nil => intro r _ hr; simpa using hr
  | cons c cs2 ih =>
    intro r hall hr
    have hb := upperOrd_bounds c (hall c (List.mem_cons_self c cs2))
    have h65 : (65 : Int) ≤ (upperOrd c : Int) := by exact_mod_cast hb.1
    rw [List.foldl_cons]
    exact ih (r * 26 + ((upperOrd c : Int) - 64))
      (fun x hx => hall x (List.mem_cons_of_mem c hx)) (by omega)

theorem colLetterToIndex_nonneg (cs : List Char) (hne : cs ≠ [])
    (hall : ∀ c ∈ cs, c.isAlpha = true) : 0 ≤ colLetterToIndex cs := by
  rcases cs with _ | ⟨c, cs2⟩
  · exact absurd rfl hne
  unfold colLetterToIndex
  rw [List.foldl_cons]
  have hb := upperOrd_bounds c (hall c (List.mem_cons_self c cs2))
  have h65 : (65 : Int) ≤ (upperOrd c : Int) := by exact_mod_cast hb.1
  have hpos := foldl_letters_pos cs2 ((0 : Int) * 26 + ((upperOrd c : Int) - 64))
    (fun x hx => hall x (List.mem_cons_of_mem c hx)) (by omega)
  omega

theorem cellLetters_alpha (cell : Cell) : ∀ c ∈ cellLetters cell, c.isAlpha = true := by
  intro c hc
  exact (List.mem_filter.1 hc).2

theorem cellIndices_nonneg (cells : List Cell) : ∀ i ∈ cellIndices cells, 0 ≤ i := by
  intro i hi
  unfold cellIndices at hi
  rcases List.mem_filterMap.1 hi with ⟨c, _, hc⟩
  by_cases hl : cellLetters c = []
  · simp [hl] at hc
  · simp only [hl, if_false] at hc
    injection hc with hi
    rw [← hi]
    exact colLetterToIndex_nonneg (cellLetters c) hl (cellLetters_alpha c)

theorem foldl_dict_not_mem :
    ∀ (d : List (Int × String)) (init : String) (k : Int), k ∉ d.map Prod.fst →
    d.foldl (fun acc p => if p.1 = k then p.2 else acc) init = init := by
  intro d
  induction d with
  | nil => intro init k _; rfl
  | cons p ps ih =>
    intro init k hk
    simp only [List.map_cons, List.mem_cons] at hk
    push_neg at hk
    rw [List.foldl_cons, if_neg (fun he => hk.1 he.symm)]
    exact ih init k hk.2

theorem dictGet_not_mem (d : List (Int × String)) (k : Int) (h : k ∉ d.map Prod.fst) :
    dictGet d k = "" :=
  foldl_dict_not_mem d "" k h

theorem processCells_skip (shared : List String) (bad : Cell)
    (hbad : cellLetters bad = []) :
    ∀ (xs ys : List Cell) (d : List (Int × String)) (m : Int),
    processCells shared (xs ++ bad :: ys) d m = processCells shared (xs ++ ys) d m := by
  have hstep : ∀ ys d m, processCells shared (bad :: ys) d m
      = processCells shared ys d m := by
    intro ys d m
    simp [processCells, show processCell shared bad = .ok none by
      simp [processCell, hbad]]
  intro xs
  induction xs with
  | nil => intro ys d m; simpa using hstep ys d m
  | cons c cs ih =>
    intro ys d m
    simp only [List.cons_append]
    rcases hpc : processCell shared c with e | (_ | ⟨i, v⟩)
    · simp [processCells, hpc]
    · simp only [processCells, hpc]
      exact ih ys d m
    · simp only [processCells, hpc]
      exact ih ys (d ++ [(i, v)]) (max m i)

/-! ## Claims C3 (corrected), C4, C10 -/

/-- C3 counterexample: with a 3-entry shared-string table, the
shared-string index `-5` names no table position, yet the Sheet Reader
raises (`IndexError` from Python negative indexing) instead of resolving
the cell to the empty string; moreover index `-1` resolves to the last
entry `"c"`, not `""`. -/
theorem C3_counterexample :
    processCell ["a", "b", "c"] ⟨some "A1", some "s", some "-5"⟩ = .error ()
    ∧ resolveShared ["a", "b", "c"] (-1) = .ok "c" := by
  constructor
  · rfl
  · rfl

/-- C3 as amended: for every *non-negative* out-of-range shared-string
index (an index at least the table length), the Sheet Reader resolves the
cell's value to the empty string and raises no exception. -/
theorem C3_out_of_range_empty (shared : List String) (cell : Cell) (vtext : String)
    (idx : Int) (hletters : cellLetters cell ≠ []) (ht : cell.t = some "s")
    (hv : cell.v = some vtext) (hp : parseInt vtext = some idx)
    (hrange : (shared.length : Int) ≤ idx) :
    processCell shared cell = .ok (some (colLetterToIndex (cellLetters cell), "")) := by
  have hres : resolveShared shared idx = .ok "" := by
    unfold resolveShared
    rw [if_neg (by omega)]
  simp [processCell, hletters, hv, ht, hp, hres]

/-- Witness for the amended C3: Scenario D, index 5 against a 3-entry
table. -/
theorem C3_witness :
    processCell ["a", "b", "c"] ⟨some "A1", some "s", some "5"⟩
      = .ok (some (colLetterToIndex (cellLetters ⟨some "A1", some "s", some "5"⟩), "")) :=
  C3_out_of_range_empty ["a", "b", "c"] ⟨some "A1", some "s", some "5"⟩ "5" 5
    (by decide) rfl rfl (by decide) (by decide)

/-- C10: a cell whose reference attribute is absent or has no alphabetic
characters is skipped entirely: the row processed with it is identical to
the row processed without it (so its value never reaches the grid and it
affects neither the maximum column index nor the row length); a cell with
an absent reference always satisfies the hypothesis. -/
theorem C10_refless_cell_skipped (shared : List String) (bad : Cell)
    (hbad : cellLetters bad = []) (xs ys : List Cell) :
    processCells shared (xs ++ bad :: ys) [] 0 = processCells shared (xs ++ ys) [] 0
    ∧ loadRow shared (xs ++ bad :: ys) = loadRow shared (xs ++ ys)
    ∧ ∀ (t v : Option String), cellLetters ⟨none, t, v⟩ = [] := by
  refine ⟨processCells_skip shared bad hbad xs ys [] 0, ?_, fun t v => rfl⟩
  unfold loadRow
  rw [processCells_skip shared bad hbad xs ys [] 0]

/-- Witness for C10: a cell with a digits-only reference and a value is
dropped without affecting the produced row. -/
theorem C10_witness :
    processCells [] ([⟨some "A1", none, some "x"⟩]
        ++ (⟨some "12", none, some "IGNORED"⟩ : Cell) :: []) [] 0
      = processCells [] ([⟨some "A1", none, some "x"⟩] ++ []) [] 0
    ∧ loadRow [] ([⟨some "A1", none, some "x"⟩]
        ++ (⟨some "12", none, some "IGNORED"⟩ : Cell) :: [])
      = loadRow [] ([⟨some "A1", none, some "x"⟩] ++ [])
    ∧ ∀ (t v : Option String), cellLetters ⟨none, t, v⟩ = [] :=
  C10_refless_cell_skipped [] ⟨some "12", none, some "IGNORED"⟩ (by decide)
    [⟨some "A1", none, some "x"⟩] []

/-- C4: when a row has at least one placed cell, its output sequence has
length one more than the maximum column index seen among the row's cells
(the fold of `max` over the indices, which is both a member of and an
upper bound of the index list), every column position not written by a
cell holds the empty string, and distinct rows may have different
lengths (a lone `A` cell gives length 1, a lone `B` cell length 2). -/
theorem C4_row_shaping (shared : List String) (cells : List Cell) (vals : List String)
    (hok : loadRow shared cells = .ok vals) (hne : cellIndices cells ≠ []) :
    ((vals.length : Int) = (cellIndices cells).foldl max 0 + 1
      ∧ (cellIndices cells).foldl max 0 ∈ cellIndices cells
      ∧ (∀ i ∈ cellIndices cells, i ≤ (cellIndices cells).foldl max 0)
      ∧ ∀ (i : Nat), i < vals.length → (i : Int) ∉ cellIndices cells →
          vals.getD i "" = "")
    ∧ loadRow [] [⟨some "A1", none, some "x"⟩] = .ok ["x"]
    ∧ loadRow [] [⟨some "B1", none, some "y"⟩] = .ok ["", "y"] := by
  refine ⟨?_, rfl, rfl⟩
  unfold loadRow at hok
  rcases hpc : processCells shared cells [] 0 with e | ⟨d, m⟩ <;> rw [hpc] at hok
  · exact absurd hok (by simp)
  have hvals : vals = (List.range (m + 1).toNat).map (fun i => dictGet d (Int.ofNat i)) := by
    have h := hok
    simp only [Except.ok.injEq] at h
    exact h.symm
  have hk := processCells_ok shared cells [] 0 d m hpc
  have hm : m = (cellIndices cells).foldl max 0 := hk.1
  have hd : d.map Prod.fst = cellIndices cells := by simpa using hk.2
  have hm0 : 0 ≤ m := hm ▸ foldl_max_le_init (cellIndices cells) 0
  have hlen : (vals.length : Int) = m + 1 := by
    rw [hvals, List.length_map, List.length_range]
    omega
  refine ⟨by rw [hlen, hm], ?_, le_foldl_max (cellIndices cells) 0, ?_⟩
  · rcases foldl_max_mem (cellIndices cells) 0 with h0 | hmem
    · rcases hL : cellIndices cells with _ | ⟨j, js⟩
      · exact absurd hL hne
      · rw [hL] at h0
        have hj : j ≤ 0 := by
          have hle := le_foldl_max (j :: js) 0 j (List.mem_cons_self j js)
          omega
        have hj0 : 0 ≤ j := cellIndices_nonneg cells j
          (by rw [hL]; exact List.mem_cons_self j js)
        have hj1 : j = 0 := le_antisymm hj hj0
        rw [h0, ← hj1]
        exact List.mem_cons_self j js
    · exact hmem
  · intro i hi hni
    have hi2 : i < ((List.range (m + 1).toNat).map
        (fun i => dictGet d (Int.ofNat i))).length := by
      rw [← hvals]; exact hi
    rw [hvals, List.getD_eq_getElem _ _ hi2]
    simp only [List.getElem_map, List.getElem_range]
    exact dictGet_not_mem d (Int.ofNat i) (hd ▸ hni)

/-- Witness for C4: a row with cells at columns `A` and `C` produces the
three-slot row `["x", "", "z"]` with the gap at column 1 empty. -/
theorem C4_witness :
    (((["x", "", "z"] : List String).length : Int)
        = (cellIndices [⟨some "A1", none, some "x"⟩, ⟨some "C1", none, some "z"⟩]).foldl
            max 0 + 1
      ∧ (cellIndices [⟨some "A1", none, some "x"⟩, ⟨some "C1", none, some "z"⟩]).foldl
            max 0
          ∈ cellIndices [⟨some "A1", none, some "x"⟩, ⟨some "C1", none, some "z"⟩]
      ∧ (∀ i ∈ cellIndices [⟨some "A1", none, some "x"⟩, ⟨some "C1", none, some "z"⟩],
          i ≤ (cellIndices
              [⟨some "A1", none, some "x"⟩, ⟨some "C1", none, some "z"⟩]).foldl max 0)
      ∧ ∀ (i : Nat), i < (["x", "", "z"] : List String).length →
          (i : Int) ∉ cellIndices [⟨some "A1", none, some "x"⟩, ⟨some "C1", none, some "z"⟩] →
          (["x", "", "z"] : List String).getD i "" = "")
    ∧ loadRow [] [⟨some "A1", none, some "x"⟩] = .ok ["x"]
    ∧ loadRow [] [⟨some "B1", none, some "y"⟩] = .ok ["", "y"] :=
  C4_row_shaping [] [⟨some "A1", none, some "x"⟩, ⟨some "C1", none, some "z"⟩]
    ["x", "", "z"] rfl (by decide)

/-! ## Per-column orchestration lemmas -/

theorem groupStep_answers (h : String → Bool) (cards : List Card) (cur : Option Card)
    (cell : String) (c0 : Card) (a : String)
    (hc0 : c0 ∈ flushState (groupStep h (cards, cur) cell)) (ha : a ∈ c0.answers) :
    (∃ c1 ∈ flushState (cards, cur), a ∈ c1.answers) ∨ a = cell := by
  cases hhc : h cell <;> rcases cur with _ | c <;>
      simp only [groupStep, hhc, flushState, Bool.false_eq_true, if_false, if_true,
        List.mem_append, List.mem_singleton] at hc0 ⊢
  · rcases hc0 with hc0 | rfl
    · left; exact ⟨c0, hc0, ha⟩
    · right; simpa using ha
  · rcases hc0 with hc0 | rfl
    · left; exact ⟨c0, Or.inl hc0, ha⟩
    · simp only [List.mem_append, List.mem_singleton] at ha
      rcases ha with ha | rfl
      · left; exact ⟨c, Or.inr rfl, ha⟩
      · right; rfl
  · rcases hc0 with hc0 | rfl
    · left; exact ⟨c0, hc0, ha⟩
    · simp at ha
  · rcases hc0 with (hc0 | rfl) | rfl
    · left; exact ⟨c0, Or.inl hc0, ha⟩
    · left; exact ⟨c0, Or.inr rfl, ha⟩
    · simp at ha

theorem foldl_groupStep_answers (h : String → Bool) :
    ∀ (cells : List String) (cards : List Card) (cur : Option Card) (c0 : Card)
      (a : String),
    c0 ∈ flushState (cells.foldl (groupStep h) (cards, cur)) → a ∈ c0.answers →
    (∃ c1 ∈ flushState (cards, cur), a ∈ c1.answers) ∨ a ∈ cells := by
  intro cells
  induction cells with
  | nil =>
    intro cards cur c0 a hc0 ha
    left; exact ⟨c0, hc0, ha⟩
  | cons c cs ih =>
    intro cards cur c0 a hc0 ha
    simp only [List.foldl_cons] at hc0
    rcases hst : groupStep h (cards, cur) c with ⟨cards2, cur2⟩
    rw [hst] at hc0
    rcases ih cards2 cur2 c0 a hc0 ha with ⟨c1, hc1, ha1⟩ | hmem
    · rcases groupStep_answers h cards cur c c1 a (hst ▸ hc1) ha1 with hex | rfl
      · left; exact hex
      · right; exact List.mem_cons_self a cs
    · right; exact List.mem_cons_of_mem c hmem

theorem cellsToCardsP_answers (h : String → Bool) (cells : List String) (c0 : Card)
    (a : String) (hc0 : c0 ∈ cellsToCardsP h cells) (ha : a ∈ c0.answers) :
    a ∈ cells := by
  rcases foldl_groupStep_answers h cells [] none c0 a hc0 ha with ⟨c1, hc1, _⟩ | hm
  · simp [flushState] at hc1
  · exact hm

theorem foldl_append_join (f : Nat → List Card) :
    ∀ (l : List Nat) (init : List Card),
    l.foldl (fun acc c => acc ++ f c) init = init ++ (l.map f).flatten := by
  intro l
  induction l with
  | nil => intro init; simp
  | cons x xs ih => intro init; simp [ih]

/-- C7: the deck built by `main` is exactly the concatenation, in
ascending column order, of the Card Grouper's output on each column's
non-empty stripped top-to-bottom values; every card of the deck comes
from a single column's isolated run and all its answers are values of
that one column. -/
theorem C7_per_column (pat : List Tok) (rows : List (List String)) :
    buildDeck pat rows
      = ((List.range (numCols rows)).map
          (fun c => cellsToCards pat (colCells rows c))).flatten
    ∧ ∀ card ∈ buildDeck pat rows, ∃ c < numCols rows,
        card ∈ cellsToCards pat (colCells rows c)
        ∧ ∀ a ∈ card.answers, a ∈ colCells rows c := by
  have hjoin : buildDeck pat rows
      = ((List.range (numCols rows)).map
          (fun c => cellsToCards pat (colCells rows c))).flatten := by
    unfold buildDeck
    simpa using foldl_append_join (fun c => cellsToCards pat (colCells rows c))
      (List.range (numCols rows)) []
  refine ⟨hjoin, ?_⟩
  intro card hcard
  rw [hjoin] at hcard
  rcases List.mem_flatten.1 hcard with ⟨l, hl, hcl⟩
  rcases List.mem_map.1 hl with ⟨c, hcr, rfl⟩
  exact ⟨c, List.mem_range.1 hcr, hcl,
    fun a ha => cellsToCardsP_answers (isHeaderCell pat) (colCells rows c) card a hcl ha⟩

/-- Witness for C7 on a two-column grid. -/
theorem C7_witness :
    ∃ c < numCols [["TK1", "x"], ["a1", "TK2"]],
      (⟨"TK1", ["a1"]⟩ : Card)
          ∈ cellsToCards defaultHeader (colCells [["TK1", "x"], ["a1", "TK2"]] c)
      ∧ ∀ a ∈ (⟨"TK1", ["a1"]⟩ : Card).answers,
          a ∈ colCells [["TK1", "x"], ["a1", "TK2"]] c :=
  (C7_per_column defaultHeader [["TK1", "x"], ["a1", "TK2"]]).2
    ⟨"TK1", ["a1"]⟩ (by decide)

/-- Witness for C6 at concrete inputs. -/
theorem C6_witness :
    cellsToCardsP (isHeaderCell defaultHeader) ["a1", "a2"] = [⟨"Untitled", ["a1", "a2"]⟩]
    ∧ cellsToCardsP (isHeaderCell defaultHeader) (["a1", "a2"] ++ "TK3" :: ["x"])
        = ⟨"Untitled", ["a1", "a2"]⟩
            :: cellsToCardsP (isHeaderCell defaultHeader) ("TK3" :: ["x"]) := by
  have h := C6_untitled_leading.2 (isHeaderCell defaultHeader) ["a1", "a2"]
    (by decide) (by decide)
  exact ⟨h.1, h.2 "TK3" ["x"] (by decide)⟩

end RafQuizzer
